import Mathlib

/-!
Verification of the zeroed-books ledger core.

A shallow embedding, in Lean 4, of the ledger-domain code of the
`zeroed-books-api` repository, together with proofs about it.

Conventions of the embedding:

* Rust `String` values that the code inspects character by character
  (currency amount strings, account names, LIKE patterns) are modelled as
  `List Char`; `String` values used only for equality and length checks
  (account names in the balancing engine, payees, currency codes, user ids)
  are modelled as Lean `String`.
* Rust `i32` is modelled as `Int`; the `i32` range bound `[-2^31, 2^31)` is
  applied explicitly exactly where the Rust code checks it (integer parsing)
  or where it matters (absolute value of `i32::MIN`).
* Fallible functions return `Option`/`Except`; a Rust panic is modelled as
  an explicit `none`/`panic` constructor value, never as partiality.
* `chrono::NaiveDate` and `DateTime<Utc>` are ordered opaque values,
  modelled as `Int`.
* Rust `HashMap<K, i32>` accumulators are modelled by their first-insertion
  key list (`keysOf`) together with the per-key sum (`sumA`).  The Rust
  iteration order of a `HashMap` is arbitrary; every statement proved about
  these maps is order-independent (membership, emptiness, singletons).
-/

namespace ZeroedBooks

/-! ## Decimal digit strings

`natToDigits` models Rust's `u32::to_string` (the `value.abs().to_string()`
call in `Currency::format_value`), and `digitsToNat`/`parseI32` model
`str::parse::<i32>()`: an optional sign, a nonempty run of ASCII digits,
and a range check.
-/

/-- The ASCII digit character for `d % 10`, as Rust's integer formatting
emits it. -/
def digitChar : Nat → Char
  | 0 => '0' | 1 => '1' | 2 => '2' | 3 => '3' | 4 => '4'
  | 5 => '5' | 6 => '6' | 7 => '7' | 8 => '8' | _ => '9'

/-- Decimal representation of a natural number, most significant digit
first; `0` is printed as `"0"`.  Models `to_string`. -/
def natToDigits (n : Nat) : List Char :=
  if n < 10 then [digitChar n]
  else natToDigits (n / 10) ++ [digitChar (n % 10)]
  termination_by n
  decreasing_by exact Nat.div_lt_self (by omega) (by omega)

/-- ASCII digit test, as `char::is_ascii_digit` / the digit check inside
Rust's integer parser. -/
def isDigitCh (ch : Char) : Bool := '0' ≤ ch && ch ≤ '9'

/-- Value of a digit string read left to right (no sign, no validation). -/
def digitsToNat (l : List Char) : Nat :=
  l.foldl (fun acc ch => acc * 10 + (ch.toNat - 48)) 0

/-- Split an optional leading `'+'`/`'-'` sign off a character list, as
Rust's integer parser does. -/
def splitSign (l : List Char) : Int × List Char :=
  match l with
  | [] => (1, [])
  | ch :: r => if ch = '+' then (1, r) else if ch = '-' then (-1, r) else (1, ch :: r)

/-- `str::parse::<i32>()`: optional sign, then a nonempty all-digit string,
with the `i32` range check.  `none` models `Err(ParseIntError)`. -/
def parseI32 (l : List Char) : Option Int :=
  let p := splitSign l
  if p.2 ≠ [] ∧ p.2.all isDigitCh = true then
    let v : Int := p.1 * (digitsToNat p.2 : Int)
    if -(2 ^ 31) ≤ v ∧ v ≤ 2 ^ 31 - 1 then some v else none
  else none

theorem digitChar_toNat {d : Nat} (h : d < 10) : (digitChar d).toNat = 48 + d := by
  interval_cases d <;> rfl

theorem isDigitCh_digitChar {d : Nat} (h : d < 10) : isDigitCh (digitChar d) = true := by
  interval_cases d <;> rfl

theorem natToDigits_ne_nil (n : Nat) : natToDigits n ≠ [] := by
  rw [natToDigits]
  split <;> simp

theorem natToDigits_all_digits (n : Nat) : (natToDigits n).all isDigitCh = true := by
  induction n using Nat.strong_induction_on with
  | _ n ih =>
    rw [natToDigits]
    split
    · simp [isDigitCh_digitChar, *]
    · rename_i h
      have := ih (n / 10) (Nat.div_lt_self (by omega) (by omega))
      simp only [List.all_append, this, Bool.true_and, List.all_cons, List.all_nil,
        Bool.and_true]
      exact isDigitCh_digitChar (Nat.mod_lt _ (by omega))

theorem digitsToNat_append_singleton (l : List Char) (ch : Char) :
    digitsToNat (l ++ [ch]) = 10 * digitsToNat l + (ch.toNat - 48) := by
  simp [digitsToNat, List.foldl_append, Nat.mul_comm]

theorem digitsToNat_natToDigits (n : Nat) : digitsToNat (natToDigits n) = n := by
  induction n using Nat.strong_induction_on with
  | _ n ih =>
    rw [natToDigits]
    split
    · rename_i h
      simp [digitsToNat, digitChar_toNat h]
    · rename_i h
      rw [digitsToNat_append_singleton, ih (n / 10) (Nat.div_lt_self (by omega) (by omega)),
        digitChar_toNat (Nat.mod_lt _ (by omega))]
      omega

theorem digitsToNat_replicate_zero_append (k : Nat) (l : List Char) :
    digitsToNat (List.replicate k '0' ++ l) = digitsToNat l := by
  induction k with
  | zero => simp
  | succ k ih =>
    have : List.replicate (k + 1) '0' ++ l = '0' :: (List.replicate k '0' ++ l) := by
      simp [List.replicate_succ]
    rw [this]
    simpa [digitsToNat] using ih

theorem isDigitCh_toNat {ch : Char} (h : isDigitCh ch = true) :
    48 ≤ ch.toNat ∧ ch.toNat ≤ 57 := by
  simp only [isDigitCh, Bool.and_eq_true, decide_eq_true_eq] at h
  obtain ⟨h1, h2⟩ := h
  constructor
  · exact h1
  · exact h2

theorem digit_ne_of_toNat {ch other : Char} (h : isDigitCh ch = true)
    (ho : other.toNat < 48 ∨ 57 < other.toNat) : ch ≠ other := by
  intro he
  have hb := isDigitCh_toNat h
  rw [he] at hb
  omega

/-! ## Currency (`src/ledger/domain/currency.rs`) -/

/-- `Currency { code, minor_units }`.  `minor_units` is a Rust `u8`; nothing
below depends on the `< 256` bound, so it is a plain `Nat`. -/
structure Currency where
  code : String
  minorUnits : Nat
deriving DecidableEq, Repr

/-- `CurrencyParseError` of `currency.rs`. -/
inductive CurrencyParseError
  | invalidNumber (raw : List Char)
  | tooManyDecimals (currency : Currency) (decimals : Nat)
deriving DecidableEq, Repr

/-- `raw_amount.replace(separator, "").replace(' ', "")` with
`separator = ","`: drop every comma, then every space. -/
def cleanAmount (l : List Char) : List Char :=
  (l.filter (fun ch => ch != ',')).filter (fun ch => ch != ' ')

/-- `str::rsplit_once(sep)`: split at the LAST occurrence of `sep`,
returning (before, after); `none` when `sep` does not occur. -/
def rsplitOnce (sep : Char) : List Char → Option (List Char × List Char)
  | [] => none
  | ch :: rest =>
    match rsplitOnce sep rest with
    | some (w, d) => some (ch :: w, d)
    | none => if ch = sep then some ([], rest) else none

/-- Right-pad with `'0'` to width `w` (Rust `format!("{:0<width$}", s)`). -/
def padRight (l : List Char) (w : Nat) : List Char :=
  l ++ List.replicate (w - l.length) '0'

/-- Left-pad with `'0'` to width `w` (Rust `format!("{:0>width$}", s)`). -/
def padLeft (l : List Char) (w : Nat) : List Char :=
  List.replicate (w - l.length) '0' ++ l

/-- The final `number_to_parse.parse().map_err(...)` step of
`Currency::parse_amount`. -/
def i32OfDigits (raw s : List Char) : Except CurrencyParseError Int :=
  match parseI32 s with
  | some v => .ok v
  | none => .error (.invalidNumber raw)

/-- `Currency::parse_amount`. -/
def Currency.parseAmount (c : Currency) (raw : List Char) :
    Except CurrencyParseError Int :=
  let cleaned := cleanAmount raw
  match rsplitOnce '.' cleaned with
  | none => i32OfDigits raw (cleaned ++ List.replicate c.minorUnits '0')
  | some (w, d) =>
    if d.length ≤ c.minorUnits then i32OfDigits raw (w ++ padRight d c.minorUnits)
    else .error (.tooManyDecimals c d.length)

/-- The body of `Currency::format_value` after the `value.abs()` call:
sign, zero-pad the absolute value to `minor_units + 1` digits, insert the
decimal point `minor_units` digits from the end. -/
def formatCore (m : Nat) (v : Int) : List Char :=
  let padded := padLeft (natToDigits v.natAbs) (m + 1)
  let dl := padded.length - m
  (if v < 0 then ['-'] else []) ++ padded.take dl ++ '.' :: padded.drop dl

/-- `Currency::format_value` on an `i32` input.  `value.abs()` overflows
(panics under Rust's debug overflow checks) at `i32::MIN`, the one `i32`
whose absolute value is not representable; that case is `none`. -/
def Currency.formatValue? (c : Currency) (v : Int) : Option (List Char) :=
  if v = -(2 ^ 31) then none else some (formatCore c.minorUnits v)

/-- Bool round-trip check: format `v`, reparse, compare. -/
def roundTrips (c : Currency) (v : Int) : Bool :=
  match c.formatValue? v with
  | none => false
  | some s =>
    match c.parseAmount s with
    | .ok w => w == v
    | .error _ => false

theorem padLeft_length (l : List Char) (w : Nat) :
    (padLeft l w).length = max w l.length := by
  simp only [padLeft, List.length_append, List.length_replicate]
  omega

theorem mem_padLeft_digits {n w : Nat} {ch : Char}
    (h : ch ∈ padLeft (natToDigits n) w) : isDigitCh ch = true := by
  simp only [padLeft, List.mem_append, List.mem_replicate] at h
  rcases h with h | h
  · rw [h.2]; rfl
  · exact List.all_eq_true.mp (natToDigits_all_digits n) ch h

theorem padLeft_digits_ne_nil (n w : Nat) : padLeft (natToDigits n) w ≠ [] := by
  simp only [padLeft]
  intro h
  rcases List.append_eq_nil.mp h with ⟨-, h2⟩
  exact natToDigits_ne_nil n h2

theorem digitsToNat_padLeft (n w : Nat) :
    digitsToNat (padLeft (natToDigits n) w) = n := by
  rw [padLeft, digitsToNat_replicate_zero_append, digitsToNat_natToDigits]

theorem rsplitOnce_eq_none {sep : Char} {l : List Char} (h : sep ∉ l) :
    rsplitOnce sep l = none := by
  induction l with
  | nil => rfl
  | cons ch rest ih =>
    simp only [List.mem_cons, not_or] at h
    rw [rsplitOnce, ih h.2]
    simp [Ne.symm h.1]

theorem rsplitOnce_append (w : List Char) {d : List Char} (sep : Char)
    (h : sep ∉ d) : rsplitOnce sep (w ++ sep :: d) = some (w, d) := by
  induction w with
  | nil =>
    rw [List.nil_append, rsplitOnce, rsplitOnce_eq_none h]
    simp
  | cons ch rest ih =>
    rw [List.cons_append, rsplitOnce, ih]

theorem filter_eq_self_of {p : Char → Bool} {l : List Char}
    (h : ∀ ch ∈ l, p ch = true) : l.filter p = l :=
  List.filter_eq_self.mpr h

/-- Every character the formatter emits is the sign, the decimal point, or
a digit. -/
theorem mem_formatCore {m : Nat} {v : Int} {ch : Char}
    (h : ch ∈ formatCore m v) :
    ch = '-' ∨ ch = '.' ∨ isDigitCh ch = true := by
  simp only [formatCore, List.mem_append, List.mem_cons] at h
  rcases h with (h | h) | h | h
  · left
    split at h <;> simp_all
  · right; right
    exact mem_padLeft_digits (List.mem_of_mem_take h)
  · right; left; exact h
  · right; right
    exact mem_padLeft_digits (List.mem_of_mem_drop h)

theorem cleanAmount_eq_self {l : List Char}
    (h : ∀ ch ∈ l, ch ≠ ',' ∧ ch ≠ ' ') : cleanAmount l = l := by
  have h1 : l.filter (fun ch => ch != ',') = l :=
    filter_eq_self_of (fun ch hm => by simpa using (h ch hm).1)
  unfold cleanAmount
  rw [h1, filter_eq_self_of (fun ch hm => by simpa using (h ch hm).2)]

theorem cleanAmount_formatCore (m : Nat) (v : Int) :
    cleanAmount (formatCore m v) = formatCore m v := by
  refine cleanAmount_eq_self fun ch hm => ?_
  rcases mem_formatCore hm with h | h | h
  · subst h; exact ⟨by decide, by decide⟩
  · subst h; exact ⟨by decide, by decide⟩
  · exact ⟨digit_ne_of_toNat h (by left; decide),
      digit_ne_of_toNat h (by left; decide)⟩

theorem padLeft_all_digits (n w : Nat) :
    (padLeft (natToDigits n) w).all isDigitCh = true :=
  List.all_eq_true.mpr fun _ h => mem_padLeft_digits h

theorem parseI32_digits {l : List Char} (hne : l ≠ [])
    (hall : l.all isDigitCh = true)
    (hrange : (digitsToNat l : Int) ≤ 2 ^ 31 - 1) :
    parseI32 l = some ((digitsToNat l : Int)) := by
  obtain ⟨hd, tl, rfl⟩ := List.exists_cons_of_ne_nil hne
  have hhd : isDigitCh hd = true := List.all_eq_true.mp hall hd (by simp)
  have h1 : hd ≠ '+' := digit_ne_of_toNat hhd (by left; decide)
  have h2 : hd ≠ '-' := digit_ne_of_toNat hhd (by left; decide)
  have hnn : (0 : Int) ≤ (digitsToNat (hd :: tl) : Int) := Int.natCast_nonneg _
  have hss : splitSign (hd :: tl) = (1, hd :: tl) := by
    simp [splitSign, h1, h2]
  simp only [parseI32, hss]
  rw [if_pos ⟨by simp, hall⟩, if_pos ⟨by omega, by omega⟩]
  simp

theorem parseI32_neg_digits {l : List Char} (hne : l ≠ [])
    (hall : l.all isDigitCh = true)
    (hrange : (digitsToNat l : Int) ≤ 2 ^ 31) :
    parseI32 ('-' :: l) = some (-(digitsToNat l : Int)) := by
  have hnn : (0 : Int) ≤ (digitsToNat l : Int) := Int.natCast_nonneg _
  have hss : splitSign ('-' :: l) = (-1, l) := by
    simp [splitSign]
  simp only [parseI32, hss]
  rw [if_pos ⟨hne, hall⟩, if_pos ⟨by omega, by omega⟩]
  simp

/-- Round-trip core: reparsing the formatter's output recovers the value,
for every representable `i32` except `i32::MIN` (where the formatter
does not return). -/
theorem parseAmount_formatCore (c : Currency) (v : Int)
    (h1 : -(2 ^ 31) < v) (h2 : v < 2 ^ 31) :
    c.parseAmount (formatCore c.minorUnits v) = .ok v := by
  set m := c.minorUnits with hm
  set padded := padLeft (natToDigits v.natAbs) (m + 1) with hpad
  have hplen : m + 1 ≤ padded.length := by
    rw [hpad, padLeft_length]; omega
  set dl := padded.length - m with hdl
  have hdrop_len : (padded.drop dl).length = m := by
    rw [List.length_drop]; omega
  have hdot : '.' ∉ padded.drop dl := fun hmem =>
    digit_ne_of_toNat (mem_padLeft_digits (List.mem_of_mem_drop hmem))
      (by left; decide) rfl
  have hs : formatCore m v =
      ((if v < 0 then ['-'] else []) ++ padded.take dl) ++ '.' :: padded.drop dl := by
    simp [formatCore, List.append_assoc]
  have hnum : ((if v < 0 then ['-'] else []) ++ padded.take dl) ++ padded.drop dl
      = (if v < 0 then ['-'] else []) ++ padded := by
    rw [List.append_assoc, List.take_append_drop]
  have hval : digitsToNat padded = v.natAbs := digitsToNat_padLeft _ _
  have step1 : rsplitOnce '.' (cleanAmount (formatCore m v)) =
      some ((if v < 0 then ['-'] else []) ++ padded.take dl, padded.drop dl) := by
    rw [cleanAmount_formatCore, hs]
    exact rsplitOnce_append _ '.' hdot
  have step2 : c.parseAmount (formatCore m v) =
      i32OfDigits (formatCore m v) ((if v < 0 then ['-'] else []) ++ padded) := by
    simp only [Currency.parseAmount, step1]
    rw [if_pos (by rw [hdrop_len])]
    rw [show padRight (padded.drop dl) c.minorUnits = padded.drop dl from by
      simp [padRight, hdrop_len, ← hm], hnum]
  rw [step2]
  by_cases hv : v < 0
  · have hva : ((v.natAbs : Int)) = -v := by omega
    simp only [if_pos hv, List.singleton_append, i32OfDigits]
    rw [parseI32_neg_digits (padLeft_digits_ne_nil _ _) (padLeft_all_digits _ _)
      (by rw [hval]; omega)]
    simp [hval, hva]
  · have hva : ((v.natAbs : Int)) = v := by omega
    simp only [if_neg hv, List.nil_append, i32OfDigits]
    rw [parseI32_digits (padLeft_digits_ne_nil _ _) (padLeft_all_digits _ _)
      (by rw [hval]; omega)]
    simp [hval, hva]

theorem i32OfDigits_ne_tooMany (raw s : List Char) (c : Currency) (L : Nat) :
    i32OfDigits raw s ≠ .error (.tooManyDecimals c L) := by
  unfold i32OfDigits
  cases parseI32 s <;> simp

/-- C2, claim as stated, fails at `v = i32::MIN`: `format_value` takes the
`i32` absolute value, which overflows there, so the round-trip produces no
`Ok(v)` (under release-mode wrapping the double-signed string fails to
reparse instead). -/
theorem c2_roundtrip_cex :
    roundTrips (Currency.mk "USD" 2) (-(2 ^ 31)) = false := by
  rfl

/-- C2 (amended): for every currency with `minor_units ≤ 8` and every `i32`
value strictly above `i32::MIN`, `parse_amount (format_value v) = Ok v`. -/
theorem c2_roundtrip (c : Currency) (v : Int) (_hmu : c.minorUnits ≤ 8)
    (h1 : -(2 ^ 31) < v) (h2 : v < 2 ^ 31) :
    ∃ s, c.formatValue? v = some s ∧ c.parseAmount s = .ok v := by
  refine ⟨formatCore c.minorUnits v, ?_, parseAmount_formatCore c v h1 h2⟩
  rw [Currency.formatValue?, if_neg (by omega)]

theorem c2_roundtrip_witness :
    ∃ s, (Currency.mk "USD" 2).formatValue? 12893 = some s ∧
      (Currency.mk "USD" 2).parseAmount s = .ok 12893 :=
  c2_roundtrip (Currency.mk "USD" 2) 12893 (by decide) (by omega) (by omega)

/-- C10: `format_value` returns a string for every `i32` strictly greater
than `i32::MIN`, and at `i32::MIN` itself the `value.abs()` call overflows,
so the bound is necessary. -/
theorem c10_format_total (c : Currency) (v : Int)
    (h1 : -(2 ^ 31) < v) (h2 : v < 2 ^ 31) :
    (∃ s, c.formatValue? v = some s) ∧ c.formatValue? (-(2 ^ 31)) = none := by
  constructor
  · exact ⟨formatCore c.minorUnits v, by rw [Currency.formatValue?, if_neg (by omega)]⟩
  · rw [Currency.formatValue?, if_pos rfl]

theorem c10_format_total_witness :
    (∃ s, (Currency.mk "USD" 2).formatValue? 7 = some s) ∧
      (Currency.mk "USD" 2).formatValue? (-(2 ^ 31)) = none :=
  c10_format_total (Currency.mk "USD" 2) 7 (by omega) (by omega)

/-- C8: when the cleaned input contains a decimal point, `parse_amount`
fails with `TooManyDecimals(c, L)` exactly when the part after the last
`'.'` is longer than `minor_units` (and then `L` is that length); when it
is not longer, the decimal part is right-padded with zeros to exactly
`minor_units` digits and the integer parser runs on whole ++ padded. -/
theorem c8_too_many_decimals (c : Currency) (raw w d : List Char)
    (h : rsplitOnce '.' (cleanAmount raw) = some (w, d)) :
    (c.minorUnits < d.length →
      c.parseAmount raw = .error (.tooManyDecimals c d.length)) ∧
    (d.length ≤ c.minorUnits →
      (padRight d c.minorUnits).length = c.minorUnits ∧
      c.parseAmount raw = i32OfDigits raw (w ++ padRight d c.minorUnits)) ∧
    (∀ L, c.parseAmount raw = .error (.tooManyDecimals c L) →
      L = d.length ∧ c.minorUnits < d.length) := by
  have hpa : c.parseAmount raw =
      if d.length ≤ c.minorUnits then i32OfDigits raw (w ++ padRight d c.minorUnits)
      else .error (.tooManyDecimals c d.length) := by
    simp only [Currency.parseAmount, h]
  refine ⟨fun hlt => ?_, fun hle => ⟨?_, ?_⟩, fun L hL => ?_⟩
  · rw [hpa, if_neg (by omega)]
  · simp only [padRight, List.length_append, List.length_replicate]
    omega
  · rw [hpa, if_pos hle]
  · rw [hpa] at hL
    by_cases hle : d.length ≤ c.minorUnits
    · rw [if_pos hle] at hL
      exact absurd hL (i32OfDigits_ne_tooMany _ _ _ _)
    · rw [if_neg hle] at hL
      have : L = d.length := by
        cases hL
        rfl
      omega

theorem c8_too_many_decimals_witness :
    ((Currency.mk "JPY" 0).minorUnits < 1 →
      (Currency.mk "JPY" 0).parseAmount ['1', '.', '0'] =
        .error (.tooManyDecimals (Currency.mk "JPY" 0) 1)) ∧
    (1 ≤ (Currency.mk "JPY" 0).minorUnits →
      (padRight ['0'] (Currency.mk "JPY" 0).minorUnits).length =
        (Currency.mk "JPY" 0).minorUnits ∧
      (Currency.mk "JPY" 0).parseAmount ['1', '.', '0'] =
        i32OfDigits ['1', '.', '0'] (['1'] ++ padRight ['0'] (Currency.mk "JPY" 0).minorUnits)) ∧
    (∀ L, (Currency.mk "JPY" 0).parseAmount ['1', '.', '0'] =
        .error (.tooManyDecimals (Currency.mk "JPY" 0) L) →
      L = 1 ∧ (Currency.mk "JPY" 0).minorUnits < 1) := by
  have h := c8_too_many_decimals (Currency.mk "JPY" 0) ['1', '.', '0'] ['1'] ['0']
    (by rfl)
  simpa using h

/-! ## Transaction balancing engine

Two generations of the builder live in the repository:

* `NewTransaction::from_data` with `try_balance`
  (`src/ledger/domain/transactions/new_transaction.rs`), validated by the
  `validator`-derived rules of `new_transaction_data.rs` /
  `new_transaction_entry_data.rs`;
* the older `NewTransaction::new`
  (`src/ledger/domain/transactions.rs`), which balances inline and keys its
  sums by the full `Currency` value.

Both take entry lists where each entry has an account and an optional
amount, so the entry shape is shared (`GEntry`), parameterised by the
amount type.  The per-currency `HashMap` accumulators are modelled by the
first-insertion key list `keysOf` plus the per-key sum `sumA`; all facts
proved about them are independent of `HashMap` iteration order.
-/

/-- Shared shape of a raw transaction entry: an account name and an
optional amount (`NewTransactionEntryData` / `NewTransactionEntry` of the
old builder). -/
structure GEntry (α : Type) where
  account : String
  amount : Option α
deriving DecidableEq, Repr

/-- `NewTransactionEntryAmountData { currency, value }` (currency is a bare
code string in the `from_data` pipeline). -/
structure NewTransactionEntryAmountData where
  currency : String
  value : Int
deriving DecidableEq, Repr

abbrev NewTransactionEntryData := GEntry NewTransactionEntryAmountData

/-- `CurrencyAmount` of `currency.rs` (the old builder keys sums by the
whole `Currency`, code and minor units). -/
structure CurrencyAmount where
  currency : Currency
  value : Int
deriving DecidableEq, Repr

abbrev OldNewTransactionEntry := GEntry CurrencyAmount

/-- Number of entries with no amount. -/
def countNone {α : Type} (es : List (GEntry α)) : Nat :=
  es.countP (fun e => e.amount.isNone)

/-- Index of the first entry with no amount, if any (`collect` of
`from_data` stops at the first missing amount). -/
def firstNoneIdx {α : Type} : List (GEntry α) → Option Nat
  | [] => none
  | e :: rest =>
    if e.amount.isNone then some 0 else (firstNoneIdx rest).map (· + 1)

/-- Give the first amount-less entry the amount `a`, as the balancing code
does through its `&mut` reference to that entry. -/
def setFirstNone {α : Type} : List (GEntry α) → α → List (GEntry α)
  | [], _ => []
  | e :: rest, a =>
    if e.amount.isNone then { e with amount := some a } :: rest
    else e :: setFirstNone rest a

/-- The (key, value) pairs of the present amounts, in entry order. -/
def amountsOf {α κ : Type} (toKV : α → κ × Int) (es : List (GEntry α)) :
    List (κ × Int) :=
  es.filterMap (fun e => e.amount.map toKV)

/-- Key list of a `HashMap` accumulator, in first-insertion order. -/
def keysOf {κ : Type} [DecidableEq κ] (ams : List (κ × Int)) : List κ :=
  ams.foldl (fun ks a => if a.1 ∈ ks then ks else ks ++ [a.1]) []

/-- The accumulated sum for one key. -/
def sumA {κ : Type} [DecidableEq κ] (ams : List (κ × Int)) (k : κ) : Int :=
  (ams.map (fun a => if a.1 = k then a.2 else 0)).sum

/-- The non-zero entries of the accumulator
(`.filter(|(_, sum)| **sum != 0)`), as (key, sum) pairs. -/
def unbalA {κ : Type} [DecidableEq κ] (ams : List (κ × Int)) : List (κ × Int) :=
  ((keysOf ams).filter (fun k => decide (sumA ams k ≠ 0))).map
    (fun k => (k, sumA ams k))

/-- The full accumulator as (key, sum) pairs (what the old builder's
`Unbalanced(sums)` error carries). -/
def fullSums {κ : Type} [DecidableEq κ] (ams : List (κ × Int)) : List (κ × Int) :=
  (keysOf ams).map (fun k => (k, sumA ams k))

def toKVnew (a : NewTransactionEntryAmountData) : String × Int :=
  (a.currency, a.value)

def toKVold (a : CurrencyAmount) : Currency × Int :=
  (a.currency, a.value)

/-- `try_balance` (`new_transaction.rs`): if exactly one entry omits its
amount and exactly one currency has a non-zero sum, fill that entry with
the negated sum; otherwise change nothing. -/
def tryBalance (es : List NewTransactionEntryData) : List NewTransactionEntryData :=
  if countNone es = 1 then
    match unbalA (amountsOf toKVnew es) with
    | [(c, s)] => setFirstNone es ⟨c, -s⟩
    | _ => es
  else es

/-- `NewTransactionData` (`new_transaction_data.rs`). -/
structure NewTransactionData where
  date : Int
  payee : String
  notes : Option String
  entries : List NewTransactionEntryData
deriving DecidableEq, Repr

/-- Per-index error list of the `validator` derive: the indices (in order)
of the elements failing `p`. -/
def badIdx {α : Type} (p : α → Bool) : Nat → List α → List Nat
  | _, [] => []
  | i, x :: rest => (if p x then [i] else []) ++ badIdx p (i + 1) rest

/-- The field errors `NewTransactionData::validate()` can produce:
`payee` length, `entries` length, the `unbalanced` custom check with its
per-currency params map, and the nested per-entry `account` length and
`currency` length errors. -/
structure ValidationErrs where
  payeeLength : Bool
  entriesLength : Bool
  unbalanced : List (String × Int)
  badAccounts : List Nat
  badCurrencies : List Nat
deriving DecidableEq, Repr

def noErrs : ValidationErrs := ⟨false, false, [], [], []⟩

/-- `NewTransactionData::validate()`: `none` when every rule passes,
otherwise the collected errors. -/
def validateData (d : NewTransactionData) : Option ValidationErrs :=
  let e : ValidationErrs :=
    { payeeLength := decide (d.payee.length < 1)
      entriesLength := decide (d.entries.length < 2)
      unbalanced := unbalA (amountsOf toKVnew d.entries)
      badAccounts := badIdx (fun en => decide (en.account.length < 1)) 0 d.entries
      badCurrencies :=
        badIdx (fun en => match en.amount with
          | none => false
          | some a => decide (a.currency.length ≠ 3)) 0 d.entries }
  if e = noErrs then none else some e

/-- A validated `NewTransactionEntry` of `new_transaction.rs` (amount no
longer optional). -/
structure NewTransactionEntry where
  account : String
  currency : String
  value : Int
deriving DecidableEq, Repr

/-- A validated `NewTransaction` of `new_transaction.rs`. -/
structure NewTransaction where
  userId : String
  date : Int
  payee : String
  notes : Option String
  entries : List NewTransactionEntry
deriving DecidableEq, Repr

/-- How `NewTransaction::from_data` can fail: `validate()` errors, or the
post-validation `required` error built for the first entry that still has
no amount (carrying that entry's index). -/
inductive FromDataError
  | invalid (e : ValidationErrs)
  | requiredAmount (index : Nat)
deriving DecidableEq, Repr

/-- `NewTransaction::from_data`: balance, validate, then convert the
entries, erroring with a `required` failure on the first entry that still
has no amount. -/
def NewTransaction.fromData (userId : String) (data : NewTransactionData) :
    Except FromDataError NewTransaction :=
  let balanced := tryBalance data.entries
  match validateData { data with entries := balanced } with
  | some e => .error (.invalid e)
  | none =>
    match firstNoneIdx balanced with
    | some i => .error (.requiredAmount i)
    | none =>
      .ok { userId := userId, date := data.date, payee := data.payee,
            notes := data.notes,
            entries := balanced.filterMap (fun e =>
              e.amount.map (fun a => ⟨e.account, a.currency, a.value⟩)) }

/-- A validated entry of the old builder (`TransactionEntry` of
`transactions.rs`). -/
structure TransactionEntry where
  account : String
  amount : CurrencyAmount
deriving DecidableEq, Repr

/-- The outcomes of the old `NewTransaction::new` (`transactions.rs`):
success, `Err(Unbalanced(sums))` with the FULL per-currency sum map, or the
panic of the `unwrap()` on an entry the balancing pass left without an
amount. -/
inductive OldBuildResult
  | ok (entries : List TransactionEntry)
  | unbalanced (sums : List (Currency × Int))
  | panic
deriving DecidableEq, Repr

/-- Drop the `Option` from every entry that has an amount (the
`unwrap()` mapping; entries without an amount cannot reach it on the paths
where it is used). -/
def unwrapEntries (es : List OldNewTransactionEntry) : List TransactionEntry :=
  es.filterMap (fun e => e.amount.map (fun a => ⟨e.account, a⟩))

/-- The old `NewTransaction::new` (`transactions.rs`), entries part: sums
per `Currency`; two missing amounts fail with the full sum map; one
unbalanced currency plus a balancing entry auto-balances; zero unbalanced
currencies succeed — unless a balancing entry was left unused, in which
case the `unwrap()` panics; everything else fails with the full sum map. -/
def oldNew (es : List OldNewTransactionEntry) : OldBuildResult :=
  if 2 ≤ countNone es then .unbalanced (fullSums (amountsOf toKVold es))
  else if unbalA (amountsOf toKVold es) = [] then
    (if countNone es = 0 then .ok (unwrapEntries es) else .panic)
  else
    match unbalA (amountsOf toKVold es) with
    | [(c, s)] =>
      if countNone es = 1 then .ok (unwrapEntries (setFirstNone es ⟨c, -s⟩))
      else .unbalanced (fullSums (amountsOf toKVold es))
    | _ => .unbalanced (fullSums (amountsOf toKVold es))

section SumLemmas

variable {κ : Type} [DecidableEq κ]

theorem mem_foldl_ins (l : List (κ × Int)) (init : List κ) (k : κ) :
    k ∈ l.foldl (fun ks a => if a.1 ∈ ks then ks else ks ++ [a.1]) init ↔
      k ∈ init ∨ k ∈ l.map Prod.fst := by
  induction l generalizing init with
  | nil => simp
  | cons a rest ih =>
    rw [List.foldl_cons, ih]
    by_cases hmem : a.1 ∈ init
    · by_cases hk : k = a.1 <;> simp [hmem, hk] <;> tauto
    · by_cases hk : k = a.1 <;> simp [hmem, hk] <;> tauto

theorem mem_keysOf {ams : List (κ × Int)} {k : κ} :
    k ∈ keysOf ams ↔ k ∈ ams.map Prod.fst := by
  rw [keysOf, mem_foldl_ins]
  simp

theorem sumA_eq_zero_of_not_mem {ams : List (κ × Int)} {k : κ}
    (h : k ∉ ams.map Prod.fst) : sumA ams k = 0 := by
  induction ams with
  | nil => rfl
  | cons a rest ih =>
    simp only [List.map_cons, List.mem_cons, not_or] at h
    simp only [sumA, List.map_cons, List.sum_cons, if_neg (Ne.symm h.1)]
    simpa [sumA] using ih h.2

theorem mem_unbalA {ams : List (κ × Int)} {k : κ} {v : Int} :
    (k, v) ∈ unbalA ams ↔ sumA ams k = v ∧ v ≠ 0 := by
  constructor
  · intro h
    simp only [unbalA, List.mem_map, List.mem_filter, decide_eq_true_eq,
      Prod.mk.injEq] at h
    obtain ⟨k2, ⟨-, hne⟩, rfl, rfl⟩ := h
    exact ⟨rfl, hne⟩
  · rintro ⟨rfl, hne⟩
    have hk : k ∈ keysOf ams := by
      rw [mem_keysOf]
      by_contra hmem
      exact hne (sumA_eq_zero_of_not_mem hmem)
    simp only [unbalA, List.mem_map, List.mem_filter, decide_eq_true_eq]
    exact ⟨k, ⟨hk, hne⟩, rfl⟩

theorem unbalA_eq_nil_iff {ams : List (κ × Int)} :
    unbalA ams = [] ↔ ∀ k, sumA ams k = 0 := by
  constructor
  · intro h k
    by_contra hne
    have : (k, sumA ams k) ∈ unbalA ams := mem_unbalA.mpr ⟨rfl, hne⟩
    rw [h] at this
    exact absurd this (List.not_mem_nil _)
  · intro h
    rw [unbalA, List.map_eq_nil, List.filter_eq_nil]
    intro k _
    simp [h k]

theorem unbalA_singleton {ams : List (κ × Int)} {c : κ} {s : Int}
    (h : unbalA ams = [(c, s)]) :
    sumA ams c = s ∧ s ≠ 0 ∧ ∀ k, k ≠ c → sumA ams k = 0 := by
  have hc : sumA ams c = s ∧ s ≠ 0 := mem_unbalA.mp (by rw [h]; simp)
  refine ⟨hc.1, hc.2, fun k hk => ?_⟩
  by_contra hne
  have : (k, sumA ams k) ∈ unbalA ams := mem_unbalA.mpr ⟨rfl, hne⟩
  rw [h] at this
  simp only [List.mem_singleton, Prod.mk.injEq] at this
  exact hk this.1

theorem mem_fullSums {ams : List (κ × Int)} {k : κ} {v : Int} :
    (k, v) ∈ fullSums ams ↔ k ∈ ams.map Prod.fst ∧ v = sumA ams k := by
  constructor
  · intro h
    obtain ⟨k2, hk2, heq⟩ := List.mem_map.mp h
    obtain ⟨rfl, rfl⟩ := Prod.mk.injEq .. |>.mp heq.symm
    exact ⟨mem_keysOf.mp hk2, rfl⟩
  · rintro ⟨hk, rfl⟩
    exact List.mem_map.mpr ⟨k, mem_keysOf.mpr hk, rfl⟩

end SumLemmas

section EntryLemmas

variable {α κ : Type} [DecidableEq κ] (toKV : α → κ × Int)

theorem countNone_cons (e : GEntry α) (rest : List (GEntry α)) :
    countNone (e :: rest) = countNone rest + (if e.amount.isNone then 1 else 0) := by
  rw [countNone, countNone, List.countP_cons]

theorem amountsOf_cons_none {e : GEntry α} (rest : List (GEntry α))
    (h : e.amount = none) :
    amountsOf toKV (e :: rest) = amountsOf toKV rest := by
  simp [amountsOf, h]

theorem amountsOf_cons_some {e : GEntry α} (rest : List (GEntry α)) {am : α}
    (h : e.amount = some am) :
    amountsOf toKV (e :: rest) = toKV am :: amountsOf toKV rest := by
  simp [amountsOf, h]

theorem sumA_cons (a : κ × Int) (ams : List (κ × Int)) (k : κ) :
    sumA (a :: ams) k = (if a.1 = k then a.2 else 0) + sumA ams k := by
  simp [sumA]

theorem setFirstNone_cons_none {e : GEntry α} (rest : List (GEntry α)) (a : α)
    (h : e.amount = none) :
    setFirstNone (e :: rest) a = { e with amount := some a } :: rest := by
  rw [setFirstNone, if_pos (by simp [h])]

theorem setFirstNone_cons_some {e : GEntry α} (rest : List (GEntry α)) (a : α)
    {am : α} (h : e.amount = some am) :
    setFirstNone (e :: rest) a = e :: setFirstNone rest a := by
  rw [setFirstNone, if_neg (by simp [h])]

theorem firstNoneIdx_eq_none_iff {es : List (GEntry α)} :
    firstNoneIdx es = none ↔ countNone es = 0 := by
  induction es with
  | nil => simp [firstNoneIdx, countNone]
  | cons e rest ih =>
    rw [firstNoneIdx, countNone_cons]
    by_cases h : e.amount.isNone
    · simp [h]
    · have hmap : (firstNoneIdx rest).map (· + 1) = none ↔ firstNoneIdx rest = none := by
        cases firstNoneIdx rest <;> simp
      rw [if_neg h, hmap, ih]
      simp [h]

theorem sumA_amountsOf_setFirstNone {es : List (GEntry α)} (a : α)
    (h : 1 ≤ countNone es) (k : κ) :
    sumA (amountsOf toKV (setFirstNone es a)) k =
      sumA (amountsOf toKV es) k + (if (toKV a).1 = k then (toKV a).2 else 0) := by
  induction es with
  | nil => simp [countNone] at h
  | cons e rest ih =>
    cases ham : e.amount with
    | none =>
      rw [setFirstNone_cons_none rest a ham,
        amountsOf_cons_some toKV rest (show ({ e with amount := some a } :
          GEntry α).amount = some a from rfl),
        amountsOf_cons_none toKV rest ham, sumA_cons]
      ring
    | some am =>
      have hrest : 1 ≤ countNone rest := by
        rw [countNone_cons, ham] at h
        simpa using h
      rw [setFirstNone_cons_some rest a ham, amountsOf_cons_some toKV _ ham,
        amountsOf_cons_some toKV rest ham, sumA_cons, sumA_cons, ih hrest]
      ring

theorem countNone_setFirstNone {es : List (GEntry α)} (a : α)
    (h : 1 ≤ countNone es) :
    countNone (setFirstNone es a) + 1 = countNone es := by
  induction es with
  | nil => simp [countNone] at h
  | cons e rest ih =>
    cases ham : e.amount with
    | none =>
      rw [setFirstNone_cons_none rest a ham, countNone_cons, countNone_cons, ham]
      simp
    | some am =>
      have hrest : 1 ≤ countNone rest := by
        rw [countNone_cons, ham] at h
        simpa using h
      rw [setFirstNone_cons_some rest a ham, countNone_cons, countNone_cons]
      have := ih hrest
      omega

theorem setFirstNone_accounts {es : List (GEntry α)} (a : α) :
    (setFirstNone es a).map (fun e => e.account) = es.map (fun e => e.account) := by
  induction es with
  | nil => rfl
  | cons e rest ih =>
    rw [setFirstNone]
    split
    · simp
    · simp [ih]

theorem mem_keys_amountsOf {es : List (GEntry α)} {k : κ}
    (h : k ∈ keysOf (amountsOf toKV es)) :
    ∃ e ∈ es, ∃ am, e.amount = some am ∧ (toKV am).1 = k := by
  rw [mem_keysOf] at h
  obtain ⟨pair, hp, hk⟩ := List.mem_map.mp h
  obtain ⟨e, he, hfe⟩ := List.mem_filterMap.mp hp
  cases ham : e.amount with
  | none => rw [ham] at hfe; simp at hfe
  | some am =>
    rw [ham] at hfe
    simp only [Option.map_some', Option.some.injEq] at hfe
    exact ⟨e, he, am, ham, by rw [hfe]; exact hk⟩

end EntryLemmas

/-- Per-currency sum of a validated transaction's entries (`from_data`
pipeline). -/
def entrySumNew (ents : List NewTransactionEntry) (k : String) : Int :=
  sumA (ents.map (fun en => (en.currency, en.value))) k

/-- Per-currency sum of a validated transaction's entries (old builder). -/
def entrySumOld (ents : List TransactionEntry) (k : Currency) : Int :=
  sumA (ents.map (fun en => (en.amount.currency, en.amount.value))) k

theorem newPairs (es : List NewTransactionEntryData) :
    (es.filterMap (fun e => e.amount.map (fun a =>
        (⟨e.account, a.currency, a.value⟩ : NewTransactionEntry)))).map
      (fun en => (en.currency, en.value)) = amountsOf toKVnew es := by
  induction es with
  | nil => rfl
  | cons e rest ih =>
    cases ham : e.amount <;> simp [amountsOf, toKVnew, ham, ← ih] <;>
      simp [amountsOf] at ih <;> exact ih

theorem oldPairs (es : List OldNewTransactionEntry) :
    (unwrapEntries es).map (fun en => (en.amount.currency, en.amount.value)) =
      amountsOf toKVold es := by
  induction es with
  | nil => rfl
  | cons e rest ih =>
    cases ham : e.amount <;> simp [unwrapEntries, amountsOf, toKVold, ham] <;>
      simp [unwrapEntries, amountsOf] at ih <;> exact ih

/-- `try_balance` either leaves the entries unchanged, or there was exactly
one missing amount and exactly one unbalanced currency, and it filled that
entry with the negated sum. -/
theorem tryBalance_eq (es : List NewTransactionEntryData) :
    tryBalance es = es ∨
      ∃ c s, countNone es = 1 ∧ unbalA (amountsOf toKVnew es) = [(c, s)] ∧
        tryBalance es = setFirstNone es ⟨c, -s⟩ := by
  unfold tryBalance
  by_cases h1 : countNone es = 1
  · rw [if_pos h1]
    rcases hu : unbalA (amountsOf toKVnew es) with - | ⟨⟨c, s⟩, rest⟩
    · left; rfl
    · cases rest with
      | nil => right; exact ⟨c, s, h1, rfl, rfl⟩
      | cons b l => left; rfl
  · rw [if_neg h1]
    left; rfl

theorem validateData_none_unbal {d : NewTransactionData}
    (h : validateData d = none) :
    unbalA (amountsOf toKVnew d.entries) = [] := by
  simp only [validateData] at h
  split at h
  · rename_i hc
    simpa [noErrs, ValidationErrs.mk.injEq] using congrArg ValidationErrs.unbalanced hc
  · exact absurd h (by simp)

theorem validateData_some_eq {d : NewTransactionData} {e : ValidationErrs}
    (h : validateData d = some e) :
    e.unbalanced = unbalA (amountsOf toKVnew d.entries) := by
  simp only [validateData] at h
  split at h
  · exact absurd h (by simp)
  · obtain rfl := Option.some.injEq .. |>.mp h.symm
    rfl

/-- C1: every transaction either builder actually returns is balanced: for
every currency, its entries' values in that currency sum to zero (for the
`from_data` builder and for the old `NewTransaction::new` alike). -/
theorem c1_balance_invariant (u : String) (d : NewTransactionData)
    (t : NewTransaction) (es : List OldNewTransactionEntry)
    (out : List TransactionEntry)
    (h1 : NewTransaction.fromData u d = .ok t)
    (h2 : oldNew es = .ok out) :
    (∀ k : String, entrySumNew t.entries k = 0) ∧
      (∀ k : Currency, entrySumOld out k = 0) := by
  constructor
  · intro k
    simp only [NewTransaction.fromData] at h1
    cases hv : validateData { d with entries := tryBalance d.entries } with
    | some e => rw [hv] at h1; exact absurd h1 (by simp)
    | none =>
      rw [hv] at h1
      cases hf : firstNoneIdx (tryBalance d.entries) with
      | some i => rw [hf] at h1; exact absurd h1 (by simp)
      | none =>
        rw [hf] at h1
        obtain rfl := Except.ok.injEq .. |>.mp h1.symm
        have hunb := validateData_none_unbal hv
        simp only at hunb
        rw [entrySumNew, newPairs]
        exact unbalA_eq_nil_iff.mp hunb k
  · intro k
    unfold oldNew at h2
    by_cases hc2 : 2 ≤ countNone es
    · rw [if_pos hc2] at h2; exact absurd h2 (by simp)
    · rw [if_neg hc2] at h2
      by_cases hu : unbalA (amountsOf toKVold es) = []
      · rw [if_pos hu] at h2
        by_cases hc0 : countNone es = 0
        · rw [if_pos hc0] at h2
          obtain rfl := OldBuildResult.ok.injEq .. |>.mp h2.symm
          rw [entrySumOld, oldPairs]
          exact unbalA_eq_nil_iff.mp hu k
        · rw [if_neg hc0] at h2; exact absurd h2 (by simp)
      · rw [if_neg hu] at h2
        rcases hue : unbalA (amountsOf toKVold es) with - | ⟨⟨c, s⟩, rest⟩
        · exact absurd hue hu
        · rw [hue] at h2
          cases rest with
          | cons b l => exact absurd h2 (by simp)
          | nil =>
            dsimp only at h2
            by_cases hc1 : countNone es = 1
            · rw [if_pos hc1] at h2
              obtain rfl := OldBuildResult.ok.injEq .. |>.mp h2.symm
              rw [entrySumOld, oldPairs]
              obtain ⟨hsum, hs0, hother⟩ := unbalA_singleton hue
              rw [sumA_amountsOf_setFirstNone toKVold _ (by omega) k]
              by_cases hk : k = c
              · subst hk
                simp [toKVold, hsum]
              · rw [hother k hk]
                simp only [toKVold]
                rw [if_neg (by simpa using Ne.symm hk)]
                omega
            · rw [if_neg hc1] at h2; exact absurd h2 (by simp)

theorem c1_balance_invariant_witness :
    (∀ k : String, entrySumNew
      [⟨"Expenses:Gas", "USD", 2783⟩, ⟨"Liabilities:Credit", "USD", -2783⟩] k = 0) ∧
    (∀ k : Currency, entrySumOld
      [⟨"Expenses:Gas", ⟨Currency.mk "USD" 2, 2783⟩⟩,
       ⟨"Liabilities:Credit", ⟨Currency.mk "USD" 2, -2783⟩⟩] k = 0) := by
  have h := c1_balance_invariant "user-id"
    ⟨0, "Gas", none, [⟨"Expenses:Gas", some ⟨"USD", 2783⟩⟩,
      ⟨"Liabilities:Credit", none⟩]⟩
    ⟨"user-id", 0, "Gas", none,
      [⟨"Expenses:Gas", "USD", 2783⟩, ⟨"Liabilities:Credit", "USD", -2783⟩]⟩
    [⟨"Expenses:Gas", some ⟨Currency.mk "USD" 2, 2783⟩⟩,
      ⟨"Liabilities:Credit", none⟩]
    [⟨"Expenses:Gas", ⟨Currency.mk "USD" 2, 2783⟩⟩,
      ⟨"Liabilities:Credit", ⟨Currency.mk "USD" 2, -2783⟩⟩]
    (by rfl) (by rfl)
  exact h

theorem badIdx_eq_nil {α : Type} (p : α → Bool) (i : Nat) (l : List α) :
    badIdx p i l = [] ↔ ∀ x ∈ l, p x = false := by
  induction l generalizing i with
  | nil => simp [badIdx]
  | cons x rest ih =>
    rw [badIdx, List.append_eq_nil]
    constructor
    · rintro ⟨h1, h2⟩
      intro y hy
      rcases List.mem_cons.mp hy with rfl | hy
      · by_contra hp
        rw [if_pos (by simpa using hp)] at h1
        exact absurd h1 (by simp)
      · exact (ih (i + 1)).mp h2 y hy
    · intro h
      refine ⟨?_, (ih (i + 1)).mpr fun y hy => h y (List.mem_cons_of_mem x hy)⟩
      rw [if_neg (by simp [h x (List.mem_cons_self x rest)])]

theorem setFirstNone_length {α : Type} (es : List (GEntry α)) (a : α) :
    (setFirstNone es a).length = es.length := by
  have h := congrArg List.length (@setFirstNone_accounts _ es a)
  simpa using h

theorem mem_setFirstNone {α : Type} {es : List (GEntry α)} {a : α}
    {e' : GEntry α} (h : e' ∈ setFirstNone es a) :
    e' ∈ es ∨ ∃ e ∈ es, e.amount = none ∧ e' = { e with amount := some a } := by
  induction es with
  | nil => simp [setFirstNone] at h
  | cons e rest ih =>
    cases ham : e.amount with
    | none =>
      rw [setFirstNone_cons_none rest a ham] at h
      rcases List.mem_cons.mp h with rfl | h
      · exact Or.inr ⟨e, List.mem_cons_self e rest, ham, rfl⟩
      · exact Or.inl (List.mem_cons_of_mem e h)
    | some am =>
      rw [setFirstNone_cons_some rest a ham] at h
      rcases List.mem_cons.mp h with rfl | h
      · exact Or.inl (List.mem_cons_self e' rest)
      · rcases ih h with h | ⟨e2, he2, hn, rfl⟩
        · exact Or.inl (List.mem_cons_of_mem e h)
        · exact Or.inr ⟨e2, List.mem_cons_of_mem e he2, hn, rfl⟩

theorem countNone_pos_exists {α : Type} {es : List (GEntry α)}
    (h : 0 < countNone es) : ∃ e ∈ es, e.amount = none := by
  rw [countNone, List.countP_pos] at h
  obtain ⟨e, he, hn⟩ := h
  exact ⟨e, he, Option.isNone_iff_eq_none.mp hn⟩

theorem two_entries {α : Type} {es : List (GEntry α)}
    (h1 : ∃ e ∈ es, e.amount = none) (h2 : ∃ e ∈ es, e.amount ≠ none) :
    2 ≤ es.length := by
  match es with
  | [] => simp at h1
  | [e] =>
    obtain ⟨e1, he1, hn1⟩ := h1
    obtain ⟨e2, he2, hn2⟩ := h2
    rw [List.mem_singleton] at he1 he2
    subst he1; subst he2
    exact absurd hn1 hn2
  | e :: f :: rest => simp

/-- The non-zero sum singleton's currency is carried by some present
amount, so it inherits that amount's validated currency code. -/
theorem sum_currency_mem {κ α : Type} [DecidableEq κ] (toKV : α → κ × Int)
    {es : List (GEntry α)} {k : κ}
    (h : sumA (amountsOf toKV es) k ≠ 0) :
    ∃ e ∈ es, ∃ am, e.amount = some am ∧ (toKV am).1 = k := by
  refine mem_keys_amountsOf toKV (mem_keysOf.mpr ?_)
  by_contra hmem
  exact h (sumA_eq_zero_of_not_mem hmem)

/-- Validation passes for the balanced entries produced in the C4
scenario. -/
theorem validateData_balanced_none (d : NewTransactionData) (c : String) (s : Int)
    (hn : countNone d.entries = 1)
    (hu : unbalA (amountsOf toKVnew d.entries) = [(c, s)])
    (hp : 1 ≤ d.payee.length)
    (ha : ∀ e ∈ d.entries, 1 ≤ e.account.length)
    (hc : ∀ e ∈ d.entries, ∀ am, e.amount = some am → am.currency.length = 3) :
    validateData { d with entries := setFirstNone d.entries ⟨c, -s⟩ } = none := by
  obtain ⟨hsum, hs0, hother⟩ := unbalA_singleton hu
  have hclen : c.length = 3 := by
    obtain ⟨e, he, am, ham, hk⟩ := sum_currency_mem toKVnew (hsum ▸ hs0)
    have := hc e he am ham
    simp only [toKVnew] at hk
    rw [← hk]
    exact this
  simp only [validateData]
  rw [if_pos]
  simp only [noErrs, ValidationErrs.mk.injEq]
  refine ⟨?_, ?_, ?_, ?_, ?_⟩
  · simp only [decide_eq_false_iff_not, not_lt]
    exact hp
  · simp only [decide_eq_false_iff_not, not_lt, setFirstNone_length]
    refine two_entries (countNone_pos_exists (by omega)) ?_
    obtain ⟨e, he, am, ham, -⟩ := sum_currency_mem toKVnew (hsum ▸ hs0)
    exact ⟨e, he, by simp [ham]⟩
  · rw [unbalA_eq_nil_iff]
    intro k
    rw [sumA_amountsOf_setFirstNone toKVnew _ (by omega) k]
    by_cases hk : k = c
    · subst hk
      simp [toKVnew, hsum]
    · rw [hother k hk]
      simp only [toKVnew]
      rw [if_neg (by simpa using Ne.symm hk)]
      omega
  · rw [badIdx_eq_nil]
    intro e' he'
    rcases mem_setFirstNone he' with he' | ⟨e, he, -, rfl⟩
    · simp only [decide_eq_false_iff_not, not_lt]
      exact ha e' he'
    · simp only [decide_eq_false_iff_not, not_lt]
      exact ha e he
  · rw [badIdx_eq_nil]
    intro e' he'
    rcases mem_setFirstNone he' with he' | ⟨e, he, -, rfl⟩
    · cases ham : e'.amount with
      | none => simp
      | some am => simp [hc e' he' am ham]
    · simp [hclen]

/-- C4 (amended): one missing amount plus exactly one unbalanced currency
makes `try_balance` fill the missing entry with the negated sum, and —
provided the structural validations hold (nonempty payee, nonempty account
names, three-letter currency codes) — `from_data` succeeds with that entry
filled in. -/
theorem c4_auto_balance (u : String) (d : NewTransactionData) (c : String)
    (s : Int)
    (hn : countNone d.entries = 1)
    (hu : unbalA (amountsOf toKVnew d.entries) = [(c, s)])
    (hp : 1 ≤ d.payee.length)
    (ha : ∀ e ∈ d.entries, 1 ≤ e.account.length)
    (hc : ∀ e ∈ d.entries, ∀ am, e.amount = some am → am.currency.length = 3) :
    tryBalance d.entries = setFirstNone d.entries ⟨c, -s⟩ ∧
      NewTransaction.fromData u d = .ok
        { userId := u, date := d.date, payee := d.payee, notes := d.notes,
          entries := (setFirstNone d.entries ⟨c, -s⟩).filterMap (fun e =>
            e.amount.map (fun a => ⟨e.account, a.currency, a.value⟩)) } := by
  have htb : tryBalance d.entries = setFirstNone d.entries ⟨c, -s⟩ := by
    unfold tryBalance
    rw [if_pos hn, hu]
  refine ⟨htb, ?_⟩
  have hval := validateData_balanced_none d c s hn hu hp ha hc
  have hcount : countNone (setFirstNone d.entries ⟨c, -s⟩) = 0 := by
    have := @countNone_setFirstNone _ d.entries ⟨c, -s⟩ (by omega)
    omega
  have hfirst : firstNoneIdx (setFirstNone d.entries ⟨c, -s⟩) = none :=
    firstNoneIdx_eq_none_iff.mpr hcount
  simp only [NewTransaction.fromData, htb, hval, hfirst]

/-- C4, claim as stated, fails: with exactly one omitted amount and exactly
one non-zero currency sum, `from_data` still rejects the transaction when a
structural validation fails (here: the balancing entry's account name is
empty), so the build does not succeed. -/
theorem c4_auto_balance_cex :
    countNone [(⟨"Assets", some ⟨"USD", 500⟩⟩ : NewTransactionEntryData),
      ⟨"", none⟩] = 1 ∧
    unbalA (amountsOf toKVnew [(⟨"Assets", some ⟨"USD", 500⟩⟩ :
      NewTransactionEntryData), ⟨"", none⟩]) = [("USD", 500)] ∧
    NewTransaction.fromData "u"
      ⟨0, "Gas", none, [⟨"Assets", some ⟨"USD", 500⟩⟩, ⟨"", none⟩]⟩ =
      .error (.invalid ⟨false, false, [], [1], []⟩) := by
  refine ⟨by rfl, by rfl, by rfl⟩

/-- The entries of the Rust test
`new_auto_balanced_transaction_single_currency`. -/
def exEntries : List NewTransactionEntryData :=
  [⟨"Expenses:Gas", some ⟨"USD", 2783⟩⟩, ⟨"Liabilities:Credit", none⟩]

def exData : NewTransactionData := ⟨0, "Gas", none, exEntries⟩

theorem c4_auto_balance_witness :
    tryBalance exData.entries = setFirstNone exData.entries ⟨"USD", -2783⟩ ∧
    NewTransaction.fromData "user-id" exData = .ok
      { userId := "user-id", date := exData.date, payee := exData.payee,
        notes := exData.notes,
        entries := (setFirstNone exData.entries ⟨"USD", -2783⟩).filterMap (fun e =>
          e.amount.map (fun a => ⟨e.account, a.currency, a.value⟩)) } :=
  c4_auto_balance "user-id" exData "USD" 2783
    (by rfl) (by rfl) (by decide) (by decide) (by decide)

/-- The entries of the Rust test
`new_auto_balanced_transaction_single_currency_zero_amount`: one entry has
an explicit zero amount and one entry omits its amount, so every currency
already sums to zero. -/
def zeroSumData : NewTransactionData :=
  ⟨0, "Gas", none, [⟨"Expenses:Gas", some ⟨"USD", 0⟩⟩,
    ⟨"Liabilities:Credit", none⟩]⟩

/-- The same input shaped for the old builder. -/
def zeroSumOldEntries : List OldNewTransactionEntry :=
  [⟨"Expenses:Gas", some ⟨Currency.mk "USD" 2, 0⟩⟩,
    ⟨"Liabilities:Credit", none⟩]

/-- C5: when the (balanced) entries pass validation but a balancing entry
was left without an amount, `from_data` reports the `required` failure on
that entry's index — and, at the concrete input of the scenario, the old
`NewTransaction::new` instead reaches its `unwrap()` and panics.  The
general part holds for every input reaching that state. -/
theorem c5_required_amount (u : String) (d : NewTransactionData) (i : Nat)
    (h1 : validateData { d with entries := tryBalance d.entries } = none)
    (h2 : firstNoneIdx (tryBalance d.entries) = some i) :
    NewTransaction.fromData u d = .error (.requiredAmount i) ∧
    NewTransaction.fromData "user-id" zeroSumData = .error (.requiredAmount 1) ∧
    oldNew zeroSumOldEntries = .panic := by
  refine ⟨?_, by rfl, by rfl⟩
  simp only [NewTransaction.fromData, h1, h2]

theorem c5_required_amount_witness :
    NewTransaction.fromData "user-id" zeroSumData = .error (.requiredAmount 1) ∧
    NewTransaction.fromData "user-id" zeroSumData = .error (.requiredAmount 1) ∧
    oldNew zeroSumOldEntries = .panic :=
  c5_required_amount "user-id" zeroSumData 1 (by rfl) (by rfl)

/-- C6 (amended): when `from_data` fails with the `unbalanced` validation
error, its params map holds exactly the non-zero per-currency sums of the
input entries; the old `NewTransaction::new`'s `Unbalanced` error instead
carries the complete per-currency sum map, zero sums included. -/
theorem c6_unbalanced_error (u : String) (d : NewTransactionData)
    (e : ValidationErrs) (es : List OldNewTransactionEntry)
    (m : List (Currency × Int))
    (h1 : NewTransaction.fromData u d = .error (.invalid e))
    (h2 : e.unbalanced ≠ [])
    (h3 : oldNew es = .unbalanced m) :
    (∀ k v, (k, v) ∈ e.unbalanced ↔
      (sumA (amountsOf toKVnew d.entries) k = v ∧ v ≠ 0)) ∧
    (∀ k v, (k, v) ∈ m ↔
      (k ∈ (amountsOf toKVold es).map Prod.fst ∧
        v = sumA (amountsOf toKVold es) k)) := by
  constructor
  · intro k v
    simp only [NewTransaction.fromData] at h1
    cases hv : validateData { d with entries := tryBalance d.entries } with
    | none =>
      rw [hv] at h1
      cases hf : firstNoneIdx (tryBalance d.entries) with
      | some i => rw [hf] at h1; simp at h1
      | none => rw [hf] at h1; simp at h1
    | some e2 =>
      rw [hv] at h1
      simp only [Except.error.injEq, FromDataError.invalid.injEq] at h1
      subst h1
      have heq := validateData_some_eq hv
      simp only at heq
      rcases tryBalance_eq d.entries with htb | ⟨c, s, hn, hu, htb⟩
      · rw [heq, htb, mem_unbalA]
      · exfalso
        apply h2
        rw [heq, htb, unbalA_eq_nil_iff]
        intro k2
        obtain ⟨hsum, hs0, hother⟩ := unbalA_singleton hu
        rw [sumA_amountsOf_setFirstNone toKVnew _ (by omega) k2]
        by_cases hk : k2 = c
        · subst hk
          simp [toKVnew, hsum]
        · rw [hother k2 hk]
          simp only [toKVnew]
          rw [if_neg (by simpa using Ne.symm hk)]
          omega
  · intro k v
    unfold oldNew at h3
    by_cases hc2 : 2 ≤ countNone es
    · rw [if_pos hc2] at h3
      obtain rfl := OldBuildResult.unbalanced.injEq .. |>.mp h3.symm
      exact mem_fullSums
    · rw [if_neg hc2] at h3
      by_cases hu : unbalA (amountsOf toKVold es) = []
      · rw [if_pos hu] at h3
        by_cases hc0 : countNone es = 0
        · rw [if_pos hc0] at h3; exact absurd h3 (by simp)
        · rw [if_neg hc0] at h3; exact absurd h3 (by simp)
      · rw [if_neg hu] at h3
        rcases hue : unbalA (amountsOf toKVold es) with - | ⟨⟨c, s⟩, rest⟩
        · exact absurd hue hu
        · rw [hue] at h3
          cases rest with
          | cons b l =>
            dsimp only at h3
            obtain rfl := OldBuildResult.unbalanced.injEq .. |>.mp h3.symm
            exact mem_fullSums
          | nil =>
            dsimp only at h3
            by_cases hc1 : countNone es = 1
            · rw [if_pos hc1] at h3; exact absurd h3 (by simp)
            · rw [if_neg hc1] at h3
              obtain rfl := OldBuildResult.unbalanced.injEq .. |>.mp h3.symm
              exact mem_fullSums

/-- Project the sum map out of an `Unbalanced` result, for concrete
membership checks. -/
def unbalancedSumsOf : OldBuildResult → List (Currency × Int)
  | .unbalanced m => m
  | _ => []

/-- The entries of a concrete transaction whose USD entries cancel and
whose lone EUR entry is unbalanced with no balancing entry available. -/
def c6OldEntries : List OldNewTransactionEntry :=
  [⟨"Expenses:Gas", some ⟨Currency.mk "USD" 2, 100⟩⟩,
   ⟨"Liabilities:Credit", some ⟨Currency.mk "USD" 2, -100⟩⟩,
   ⟨"Expenses:Food", some ⟨Currency.mk "EUR" 2, 5⟩⟩]

/-- C6, claim as stated, fails on `NewTransaction::new`: the `Unbalanced`
error it returns contains USD with sum 0, a currency whose sum is zero. -/
theorem c6_unbalanced_error_cex :
    (unbalancedSumsOf (oldNew c6OldEntries)).contains (Currency.mk "USD" 2, 0) =
      true := by
  rfl

theorem c6_unbalanced_error_witness :
    (∀ k v, (k, v) ∈ (⟨false, false, [("USD", 200)], [], []⟩ :
        ValidationErrs).unbalanced ↔
      (sumA (amountsOf toKVnew [⟨"Expenses:Food", some ⟨"USD", 100⟩⟩,
        ⟨"Assets:Checking", some ⟨"USD", 100⟩⟩]) k = v ∧ v ≠ 0)) ∧
    (∀ k v, (k, v) ∈ ([(Currency.mk "USD" 2, 0), (Currency.mk "EUR" 2, 5)] :
        List (Currency × Int)) ↔
      (k ∈ (amountsOf toKVold c6OldEntries).map Prod.fst ∧
        v = sumA (amountsOf toKVold c6OldEntries) k)) :=
  c6_unbalanced_error "u"
    ⟨0, "Unbalanced", none, [⟨"Expenses:Food", some ⟨"USD", 100⟩⟩,
      ⟨"Assets:Checking", some ⟨"USD", 100⟩⟩]⟩
    ⟨false, false, [("USD", 200)], [], []⟩
    c6OldEntries
    [(Currency.mk "USD" 2, 0), (Currency.mk "EUR" 2, 5)]
    (by rfl) (by decide) (by rfl)

/-! ## Hierarchical account matching

Both the listing query (`repos/transactions.rs`, `queries/postgres.rs`)
and the balance queries (`queries/postgres.rs`) select entries with

    a.name = $account OR a.name LIKE $account || ':%'

`likeMatch` embeds SQL `LIKE`: `%` matches any sequence, `_` one character,
backslash escapes the next pattern character (Postgres's default escape).
A pattern ending in a bare backslash raises an error in Postgres; it is
modelled as no match.
-/

def likeMatch : List Char → List Char → Bool
  | [], t => t.isEmpty
  | '%' :: ps, t => t.tails.any (fun s => likeMatch ps s)
  | '_' :: _, [] => false
  | '_' :: ps, _ :: ts => likeMatch ps ts
  | '\\' :: pc2 :: ps2, tc :: ts => pc2 == tc && likeMatch ps2 ts
  | '\\' :: _, _ => false
  | _ :: _, [] => false
  | pc :: ps, tc :: ts => pc == tc && likeMatch ps ts

theorem likeMatch_nil_eq (t : List Char) : likeMatch [] t = t.isEmpty := by
  simp [likeMatch]

theorem likeMatch_percent_cons (ps t : List Char) :
    likeMatch ('%' :: ps) t = t.tails.any (fun s => likeMatch ps s) := by
  simp [likeMatch]

theorem likeMatch_lit_nil {pc : Char} (ps : List Char)
    (h1 : pc ≠ '%') (h2 : pc ≠ '_') (h3 : pc ≠ '\\') :
    likeMatch (pc :: ps) [] = false := by
  rcases ps with - | ⟨a, l⟩
  · simp [likeMatch, h1, h2, h3]
  · simp [likeMatch, h1, h2, h3]

theorem likeMatch_lit_cons {pc : Char} (ps : List Char) (tc : Char)
    (ts : List Char) (h1 : pc ≠ '%') (h2 : pc ≠ '_') (h3 : pc ≠ '\\') :
    likeMatch (pc :: ps) (tc :: ts) = (pc == tc && likeMatch ps ts) := by
  simp [likeMatch, h1, h2, h3]

/-- The SQL predicate `name = account OR name LIKE account || ':%'`. -/
def accountMatch (account name : List Char) : Bool :=
  name == account || likeMatch (account ++ [':', '%']) name

/-- A character with no special meaning in a LIKE pattern. -/
def plainCh (ch : Char) : Prop := ch ≠ '%' ∧ ch ≠ '_' ∧ ch ≠ '\\'

theorem likeMatch_percent (t : List Char) : likeMatch ['%'] t = true := by
  rw [likeMatch_percent_cons, List.any_eq_true]
  exact ⟨[], by rw [List.mem_tails]; exact List.nil_suffix, by rfl⟩

theorem likeMatch_plain_append_percent {p : List Char}
    (hp : ∀ ch ∈ p, plainCh ch) (t : List Char) :
    likeMatch (p ++ ['%']) t = true ↔ p <+: t := by
  induction p generalizing t with
  | nil =>
    rw [List.nil_append, likeMatch_percent t]
    simp
  | cons pc ps ih =>
    obtain ⟨h1, h2, h3⟩ := hp pc (List.mem_cons_self pc ps)
    have hps : ∀ ch ∈ ps, plainCh ch := fun ch hm =>
      hp ch (List.mem_cons_of_mem pc hm)
    cases t with
    | nil =>
      rw [List.cons_append, likeMatch_lit_nil _ h1 h2 h3]
      simp
    | cons tc ts =>
      rw [List.cons_append, likeMatch_lit_cons _ tc ts h1 h2 h3]
      simp only [Bool.and_eq_true, beq_iff_eq, List.cons_prefix_cons, ih hps]

/-- C9 (amended): for a filter string with no LIKE wildcard or escape
characters, an account name matches exactly when it equals the filter or
extends it by `':'` and a descendant path; siblings sharing only a string
prefix are excluded. -/
theorem c9_account_match (account name : List Char)
    (h : ∀ ch ∈ account, ch ≠ '%' ∧ ch ≠ '_' ∧ ch ≠ '\\') :
    accountMatch account name = true ↔
      (name = account ∨ (account ++ [':']) <+: name) := by
  have hplain : ∀ ch ∈ account ++ [':'], plainCh ch := by
    intro ch hm
    rcases List.mem_append.mp hm with hm | hm
    · exact h ch hm
    · rw [List.mem_singleton] at hm
      subst hm
      exact ⟨by decide, by decide, by decide⟩
  rw [accountMatch, Bool.or_eq_true, beq_iff_eq]
  have : (account ++ [':', '%']) = (account ++ [':']) ++ ['%'] := by
    simp
  rw [this, likeMatch_plain_append_percent hplain]

/-- C9, claim as stated, fails for a filter containing the LIKE wildcard
`%`: filter `"A%"` matches the account `"AB:C"`, which neither equals the
filter nor starts with `"A%:"`. -/
theorem c9_account_match_cex :
    accountMatch ['A', '%'] ['A', 'B', ':', 'C'] = true ∧
      ['A', 'B', ':', 'C'] ≠ ['A', '%'] ∧
      ¬ ((['A', '%', ':'] : List Char) <+: ['A', 'B', ':', 'C']) := by
  refine ⟨by rfl, by decide, by decide⟩

theorem c9_account_match_witness :
    accountMatch ['E', 'x'] ['E', 'x', ':', 'G'] = true ↔
      (['E', 'x', ':', 'G'] = ['E', 'x'] ∨
        (['E', 'x'] ++ [':']) <+: ['E', 'x', ':', 'G']) :=
  c9_account_match ['E', 'x'] ['E', 'x', ':', 'G'] (by decide)

/-! ## Transaction listing (keyset pagination)

`list_transactions` (`repos/transactions.rs` and `queries/postgres.rs`):
select the caller's transactions, optionally restricted to an account (the
hierarchical match above) and to rows strictly below an `after` cursor
under the canonical order `date DESC, created_at DESC`; fetch
`page_size + 1 = 51` rows; if 51 come back, drop the extra row and emit a
cursor built from the last retained row's `(date, created_at)`.

The SQL database is modelled by a row list `store`; `SELECT ... WHERE p
ORDER BY k LIMIT n` is `((sortedTable store).filter p).take n`.  SQL leaves
the relative order of rows with equal sort keys unspecified; sorting the
table once with a stable insertion sort and then filtering fixes one
admissible order.
-/

def pageSize : Nat := 50

/-- A persisted transaction row, with the account names its entries
reference (for the account filter's join). -/
structure TxRow where
  id : Nat
  userId : String
  date : Int
  createdAt : Int
  accounts : List (List Char)
deriving DecidableEq, Repr

def rowKey (r : TxRow) : Int × Int := (r.date, r.createdAt)

/-- Strictly earlier under the canonical order read backwards: the cursor
comparison `date < d OR (date = d AND created_at < c)`. -/
def keyLt (a b : Int × Int) : Prop := a.1 < b.1 ∨ (a.1 = b.1 ∧ a.2 < b.2)

instance (a b : Int × Int) : Decidable (keyLt a b) := by
  unfold keyLt; infer_instance

def keyLe (a b : Int × Int) : Prop := a.1 < b.1 ∨ (a.1 = b.1 ∧ a.2 ≤ b.2)

instance (a b : Int × Int) : Decidable (keyLe a b) := by
  unfold keyLe; infer_instance

/-- `ORDER BY date DESC, created_at DESC`: `r1` sorts no later than `r2`. -/
def rowGE (r1 r2 : TxRow) : Prop := keyLe (rowKey r2) (rowKey r1)

instance (r1 r2 : TxRow) : Decidable (rowGE r1 r2) := by
  unfold rowGE; infer_instance

/-- `r1` sorts strictly before `r2`. -/
def rowGT (r1 r2 : TxRow) : Prop := keyLt (rowKey r2) (rowKey r1)

/-- `TransactionQuery { user_id, after, account }`. -/
structure TxQuery where
  userId : String
  after : Option (Int × Int)
  account : Option (List Char)

def userOk (u : String) (r : TxRow) : Bool := r.userId == u

def cursorOk (c : Option (Int × Int)) (r : TxRow) : Bool :=
  match c with
  | none => true
  | some k => decide (keyLt (rowKey r) k)

def accountOk (a : Option (List Char)) (r : TxRow) : Bool :=
  match a with
  | none => true
  | some x => r.accounts.any (fun nm => accountMatch x nm)

/-- The WHERE clause of the listing query. -/
def eligible (q : TxQuery) (r : TxRow) : Bool :=
  userOk q.userId r && accountOk q.account r && cursorOk q.after r

/-- `TransactionCollection { items, next }`. -/
structure TxCollection where
  items : List TxRow
  next : Option (Int × Int)
deriving DecidableEq, Repr

/-- The table in `ORDER BY date DESC, created_at DESC` order. -/
def sortedTable (store : List TxRow) : List TxRow :=
  List.insertionSort rowGE store

/-- `list_transactions`: fetch `page_size + 1` matching rows in canonical
order; on a full fetch drop the extra row and emit the last retained row's
key as the `next` cursor. -/
def listTransactions (store : List TxRow) (q : TxQuery) : TxCollection :=
  let fetched := ((sortedTable store).filter (eligible q)).take (pageSize + 1)
  if fetched.length = pageSize + 1 then
    { items := fetched.dropLast, next := fetched.dropLast.getLast?.map rowKey }
  else
    { items := fetched, next := none }

/-- Call `list` repeatedly, following each returned `next` cursor,
concatenating the items; `stores i` is the table contents at call `i`
(later calls may see newly inserted rows). -/
def listAllSeq (stores : Nat → List TxRow) (u : String) :
    Nat → Nat → Option (Int × Int) → List TxRow
  | 0, _, _ => []
  | fuel + 1, i, c =>
    let res := listTransactions (stores i) ⟨u, c, none⟩
    match res.next with
    | none => res.items
    | some k => res.items ++ listAllSeq stores u fuel (i + 1) (some k)

/-- Number of calls the iteration of `listAllSeq` makes. -/
def listCalls (stores : Nat → List TxRow) (u : String) :
    Nat → Nat → Option (Int × Int) → Nat
  | 0, _, _ => 0
  | fuel + 1, i, c =>
    let res := listTransactions (stores i) ⟨u, c, none⟩
    match res.next with
    | none => 1
    | some k => 1 + listCalls stores u fuel (i + 1) (some k)

theorem keyLt_irrefl (a : Int × Int) : ¬ keyLt a a := by
  unfold keyLt; omega

theorem keyLt_trans {a b c : Int × Int} (h1 : keyLt a b) (h2 : keyLt b c) :
    keyLt a c := by
  unfold keyLt at *; omega

theorem keyLt_asymm {a b : Int × Int} (h1 : keyLt a b) : ¬ keyLt b a := by
  unfold keyLt at *; omega

theorem keyLe_of_not_lt {a b : Int × Int} (h : ¬ keyLt a b) : keyLe b a := by
  unfold keyLt at h; unfold keyLe; omega

theorem keyLt_of_le_ne {a b : Int × Int} (h1 : keyLe a b) (h2 : a ≠ b) :
    keyLt a b := by
  unfold keyLe at h1; unfold keyLt
  rcases a with ⟨a1, a2⟩
  rcases b with ⟨b1, b2⟩
  simp only [ne_eq, Prod.mk.injEq, not_and] at h2
  omega

instance : IsTotal TxRow rowGE where
  total r1 r2 := by
    unfold rowGE keyLe
    omega

instance : IsTrans TxRow rowGE where
  trans r1 r2 r3 h1 h2 := by
    unfold rowGE keyLe at *
    omega

theorem sortedTable_sorted (store : List TxRow) :
    (sortedTable store).Sorted rowGE :=
  List.sorted_insertionSort rowGE store

theorem sortedTable_perm (store : List TxRow) : List.Perm (sortedTable store) store :=
  List.perm_insertionSort rowGE store

/-- A `rowGE`-sorted list whose keys are pairwise distinct is strictly
sorted. -/
theorem pairwise_rowGT_of_sorted {L : List TxRow} (hs : L.Sorted rowGE)
    (hd : L.Pairwise (fun a b => rowKey a ≠ rowKey b)) : L.Pairwise rowGT :=
  (hs.and hd).imp fun {a b} h => keyLt_of_le_ne h.1 (Ne.symm h.2)

/-- Two permuted, strictly sorted lists are equal. -/
theorem eq_of_perm_of_pairwise_rowGT {l1 l2 : List TxRow} (hp : List.Perm l1 l2)
    (h1 : l1.Pairwise rowGT) (h2 : l2.Pairwise rowGT) : l1 = l2 := by
  have hanti : IsAntisymm TxRow (fun a b => a = b ∨ rowGT a b) := by
    constructor
    intro a b hab hba
    rcases hab with rfl | hab
    · rfl
    · rcases hba with rfl | hba
      · rfl
      · exact absurd hba (keyLt_asymm hab)
  have hs1 : l1.Sorted (fun a b => a = b ∨ rowGT a b) := h1.imp Or.inr
  have hs2 : l2.Sorted (fun a b => a = b ∨ rowGT a b) := h2.imp Or.inr
  exact @List.eq_of_perm_of_sorted _ _ hanti _ _ hp hs1 hs2

/-- Filtering by a predicate that implies another collapses the nested
filter. -/
theorem filter_filter_imp {α : Type} {p q : α → Bool}
    (himp : ∀ r, p r = true → q r = true) (l : List α) :
    (l.filter q).filter p = l.filter p := by
  induction l with
  | nil => rfl
  | cons a rest ih =>
    by_cases hq : q a = true
    · rw [List.filter_cons_of_pos hq]
      by_cases hp : p a = true
      · rw [List.filter_cons_of_pos hp, List.filter_cons_of_pos hp, ih]
      · rw [List.filter_cons_of_neg (by simpa using hp),
          List.filter_cons_of_neg (by simpa using hp), ih]
    · have hp : ¬ p a = true := fun hpa => hq (himp a hpa)
      rw [List.filter_cons_of_neg (by simpa using hq),
        List.filter_cons_of_neg (by simpa using hp), ih]

/-- In a strictly descending list, the rows strictly below the key of the
element at index `n` are exactly the rows after position `n`. -/
theorem filter_lt_get {L : List TxRow} (hL : L.Pairwise rowGT) {n : Nat}
    {r0 : TxRow} (hn : L.get? n = some r0) :
    L.filter (fun r => decide (keyLt (rowKey r) (rowKey r0))) = L.drop (n + 1) := by
  induction L generalizing n with
  | nil => simp at hn
  | cons a rest ih =>
    rcases List.pairwise_cons.mp hL with ⟨ha, hrest⟩
    cases n with
    | zero =>
      rw [List.get?_cons_zero, Option.some.injEq] at hn
      subst hn
      rw [List.filter_cons_of_neg (by simp [keyLt_irrefl])]
      rw [List.drop_succ_cons, List.drop_zero]
      refine List.filter_eq_self.mpr fun r hr => ?_
      simpa using ha r hr
    | succ m =>
      rw [List.get?_cons_succ] at hn
      have hmem : r0 ∈ rest := List.get?_mem hn
      have :  ¬ keyLt (rowKey a) (rowKey r0) := keyLt_asymm (ha r0 hmem)
      rw [List.filter_cons_of_neg (by simpa using this),
        List.drop_succ_cons, ih hrest hn]

theorem filter_and {α : Type} (p q : α → Bool) (l : List α) :
    l.filter (fun x => p x && q x) = (l.filter p).filter q := by
  induction l with
  | nil => rfl
  | cons a rest ih =>
    by_cases hp : p a = true
    · by_cases hq : q a = true
      · rw [List.filter_cons_of_pos (by simp [hp, hq]),
          List.filter_cons_of_pos hp, List.filter_cons_of_pos hq, ih]
      · rw [List.filter_cons_of_neg (by simp [hp, hq]),
          List.filter_cons_of_pos hp, List.filter_cons_of_neg (by simpa using hq), ih]
    · rw [List.filter_cons_of_neg (by simp [hp]),
        List.filter_cons_of_neg (by simpa using hp), ih]

/-- A short fetch: fewer matching rows than a full page, so no cursor. -/
theorem listTransactions_small (store : List TxRow) (q : TxQuery)
    (h : ((sortedTable store).filter (eligible q)).length ≤ pageSize) :
    listTransactions store q =
      ⟨(sortedTable store).filter (eligible q), none⟩ := by
  unfold listTransactions
  rw [List.take_of_length_le (by omega)]
  rw [if_neg (by omega)]

/-- A full fetch: `page_size + 1` rows exist, so the page is the first
`page_size` rows and the cursor is the key of row `page_size - 1`. -/
theorem listTransactions_big (store : List TxRow) (q : TxQuery) {r1 : TxRow}
    (h : pageSize + 1 ≤ ((sortedTable store).filter (eligible q)).length)
    (hr : ((sortedTable store).filter (eligible q)).get? (pageSize - 1) = some r1) :
    listTransactions store q =
      ⟨((sortedTable store).filter (eligible q)).take pageSize,
        some (rowKey r1)⟩ := by
  unfold listTransactions
  set L := (sortedTable store).filter (eligible q) with hL
  have hlen : (L.take (pageSize + 1)).length = pageSize + 1 := by
    rw [List.length_take]
    omega
  rw [if_pos hlen]
  have hdl : (L.take (pageSize + 1)).dropLast = L.take pageSize := by
    rw [List.dropLast_eq_take, hlen, List.take_take]
    norm_num
  rw [hdl]
  have hlen50 : (L.take pageSize).length = pageSize := by
    rw [List.length_take]
    omega
  have hlast : (L.take pageSize).getLast? = some r1 := by
    rw [List.getLast?_eq_get?, hlen50]
    rw [List.get?_eq_getElem?, List.getElem?_take_of_lt (by decide),
      ← List.get?_eq_getElem?]
    exact hr
  rw [hlast]
  rfl

/-- Cursor-following loop, after the first page: if every later call sees
the same strictly-sorted user rows below the cursor, the loop returns
exactly the rows after the cursor row's position. -/
theorem listAll_tail (stores : Nat → List TxRow) (u : String) (S : List TxRow)
    (hS : S.Pairwise rowGT)
    (hvis : ∀ i (r : TxRow), r ∈ S →
      (sortedTable (stores i)).filter (eligible ⟨u, some (rowKey r), none⟩) =
        S.filter (fun x => decide (keyLt (rowKey x) (rowKey r)))) :
    ∀ fuel i n r0, S.get? n = some r0 → S.length - n ≤ fuel →
      listAllSeq stores u fuel i (some (rowKey r0)) = S.drop (n + 1) := by
  intro fuel
  induction fuel with
  | zero =>
    intro i n r0 hn hfuel
    have : S.length ≤ n := by omega
    rw [List.get?_eq_getElem?, List.getElem?_eq_none this] at hn
    exact absurd hn (by simp)
  | succ fuel ih =>
    intro i n r0 hn hfuel
    have hmem : r0 ∈ S := List.get?_mem hn
    have hT : (sortedTable (stores i)).filter
        (eligible ⟨u, some (rowKey r0), none⟩) = S.drop (n + 1) := by
      rw [hvis i r0 hmem, filter_lt_get hS hn]
    by_cases hsmall : (S.drop (n + 1)).length ≤ pageSize
    · have hres := listTransactions_small (stores i)
        ⟨u, some (rowKey r0), none⟩ (by rw [hT]; exact hsmall)
      rw [listAllSeq, hres, hT]
    · have hlen : pageSize + 1 ≤ (S.drop (n + 1)).length := by omega
      cases hr1 : (S.drop (n + 1)).get? (pageSize - 1) with
      | none =>
        rw [List.get?_eq_getElem?, List.getElem?_eq_none_iff] at hr1
        omega
      | some r1 =>
        have hres := listTransactions_big (stores i)
          ⟨u, some (rowKey r0), none⟩ (by rw [hT]; exact hlen) (by rw [hT]; exact hr1)
        have hSn : S.get? (n + 1 + (pageSize - 1)) = some r1 := by
          rw [← List.get?_drop]
          exact hr1
        have hrec := ih (i + 1) (n + 1 + (pageSize - 1)) r1 hSn (by
          have h50 : (S.drop (n + 1)).length = S.length - (n + 1) := by
            rw [List.length_drop]
          have hps : pageSize = 50 := rfl
          omega)
        rw [listAllSeq, hres, hT]
        simp only
        rw [hrec]
        have hps : pageSize = 50 := rfl
        rw [show n + 1 + (pageSize - 1) + 1 = n + 1 + pageSize by omega]
        have hdd : List.drop (n + 1 + pageSize) S =
            List.drop pageSize (List.drop (n + 1) S) := (List.drop_drop _ _ _).symm
        rw [hdd, List.take_append_drop]

theorem eligible_cursor_split (u : String) (c : Option (Int × Int)) (r : TxRow) :
    eligible ⟨u, c, none⟩ r = (userOk u r && cursorOk c r) := by
  simp [eligible, accountOk]

theorem rowKey_ne_symm {a b : TxRow} (h : rowKey a ≠ rowKey b) :
    rowKey b ≠ rowKey a := Ne.symm h

/-- The rows each later call sees below a cursor taken from the original
user rows are exactly the original user rows below that cursor, in the
same order: rows inserted later all carry strictly later dates, so the
cursor filter removes every one of them. -/
theorem vis_eq (stores : Nat → List TxRow) (u : String)
    (hdist : ((stores 0).filter (userOk u)).Pairwise
      (fun a b => rowKey a ≠ rowKey b))
    (hins : ∀ i, ∃ ext,
      (stores i).filter (userOk u) = (stores 0).filter (userOk u) ++ ext ∧
      ∀ r ∈ ext, ∀ r0 ∈ (stores 0).filter (userOk u), r0.date < r.date)
    (i : Nat) (r : TxRow)
    (hr : r ∈ (sortedTable (stores 0)).filter (userOk u)) :
    (sortedTable (stores i)).filter (eligible ⟨u, some (rowKey r), none⟩) =
      ((sortedTable (stores 0)).filter (userOk u)).filter
        (fun x => decide (keyLt (rowKey x) (rowKey r))) := by
  set S := (sortedTable (stores 0)).filter (userOk u) with hSdef
  set P : TxRow → Bool := fun x => decide (keyLt (rowKey x) (rowKey r)) with hP
  set S0f := (stores 0).filter (userOk u) with hS0f
  obtain ⟨ext, hsplit, hdates⟩ := hins i
  have hSperm : List.Perm S S0f := (sortedTable_perm (stores 0)).filter (userOk u)
  have hrS0f : r ∈ S0f := hSperm.mem_iff.mp hr
  -- the left-hand side, rewritten to a double filter
  have hLHS1 : (sortedTable (stores i)).filter (eligible ⟨u, some (rowKey r), none⟩)
      = ((sortedTable (stores i)).filter (userOk u)).filter P := by
    rw [← filter_and]
    exact List.filter_congr fun x _ => eligible_cursor_split u (some (rowKey r)) x
  have hextnil : ext.filter P = [] := by
    rw [List.filter_eq_nil]
    intro x hx
    have hdate := hdates x hx r hrS0f
    simp only [hP, decide_eq_true_eq, keyLt, rowKey]
    omega
  have hp1 : List.Perm (((sortedTable (stores i)).filter (userOk u)).filter P)
      (((stores i).filter (userOk u)).filter P) :=
    ((sortedTable_perm (stores i)).filter (userOk u)).filter P
  have hp2 : ((stores i).filter (userOk u)).filter P = S0f.filter P := by
    rw [hsplit, List.filter_append, hextnil, List.append_nil]
  have hLHSperm : List.Perm
      ((sortedTable (stores i)).filter (eligible ⟨u, some (rowKey r), none⟩))
      (S0f.filter P) := by
    rw [hLHS1]
    exact hp2 ▸ hp1
  have hRHSperm : List.Perm (S.filter P) (S0f.filter P) := hSperm.filter P
  -- both sides are strictly sorted
  have hSsorted : S.Sorted rowGE :=
    List.Pairwise.sublist (List.filter_sublist _) (sortedTable_sorted (stores 0))
  have hSne : S.Pairwise (fun a b => rowKey a ≠ rowKey b) :=
    (hSperm.pairwise_iff rowKey_ne_symm).mpr hdist
  have hSGT : S.Pairwise rowGT := pairwise_rowGT_of_sorted hSsorted hSne
  have hLHSsorted : ((sortedTable (stores i)).filter
      (eligible ⟨u, some (rowKey r), none⟩)).Sorted rowGE :=
    List.Pairwise.sublist (List.filter_sublist _) (sortedTable_sorted (stores i))
  have hS0fP : (S0f.filter P).Pairwise (fun a b => rowKey a ≠ rowKey b) :=
    List.Pairwise.sublist (List.filter_sublist _) hdist
  have hLHSne : ((sortedTable (stores i)).filter
      (eligible ⟨u, some (rowKey r), none⟩)).Pairwise
        (fun a b => rowKey a ≠ rowKey b) :=
    (hLHSperm.pairwise_iff rowKey_ne_symm).mpr hS0fP
  have hLHSGT := pairwise_rowGT_of_sorted hLHSsorted hLHSne
  have hRHSGT : (S.filter P).Pairwise rowGT :=
    List.Pairwise.sublist (List.filter_sublist _) hSGT
  exact eq_of_perm_of_pairwise_rowGT (hLHSperm.trans hRHSperm.symm) hLHSGT hRHSGT

theorem items_sublist_fetched (store : List TxRow) (q : TxQuery) :
    (listTransactions store q).items.Sublist
      (((sortedTable store).filter (eligible q)).take (pageSize + 1)) := by
  simp only [listTransactions]
  split
  · exact List.dropLast_sublist _
  · exact List.Sublist.refl _

/-- C3 (amended): with an `after` cursor only rows strictly below it are
returned (unconditionally); and when the user's stored rows have pairwise
distinct `(date, created_at)` keys, following the cursors returns every one
of the user's original rows exactly once, in canonical order, even when
rows with strictly later dates are inserted between calls. -/
theorem c3_keyset_pagination (stores : Nat → List TxRow) (u : String)
    (hdist : ((stores 0).filter (userOk u)).Pairwise
      (fun a b => rowKey a ≠ rowKey b))
    (hins : ∀ i, ∃ ext,
      (stores i).filter (userOk u) = (stores 0).filter (userOk u) ++ ext ∧
      ∀ r ∈ ext, ∀ r0 ∈ (stores 0).filter (userOk u), r0.date < r.date) :
    (∀ (store : List TxRow) (q : TxQuery) (k : Int × Int), q.after = some k →
      ∀ r ∈ (listTransactions store q).items, keyLt (rowKey r) k) ∧
    listAllSeq stores u ((stores 0).length + 1) 0 none =
      sortedTable ((stores 0).filter (userOk u)) := by
  constructor
  · intro store q k hq r hr
    have hrf : r ∈ ((sortedTable store).filter (eligible q)).take (pageSize + 1) :=
      (items_sublist_fetched store q).subset hr
    have hrfil : r ∈ (sortedTable store).filter (eligible q) :=
      (List.take_sublist _ _).subset hrf
    have helig : eligible q r = true := List.of_mem_filter hrfil
    rw [eligible, hq] at helig
    simp only [Bool.and_eq_true, cursorOk, decide_eq_true_eq] at helig
    exact helig.2
  · set S := (sortedTable (stores 0)).filter (userOk u) with hS
    have hSperm : List.Perm S ((stores 0).filter (userOk u)) :=
      (sortedTable_perm (stores 0)).filter (userOk u)
    have hSsorted : S.Sorted rowGE :=
      List.Pairwise.sublist (List.filter_sublist _) (sortedTable_sorted (stores 0))
    have hSne : S.Pairwise (fun a b => rowKey a ≠ rowKey b) :=
      (hSperm.pairwise_iff rowKey_ne_symm).mpr hdist
    have hSGT : S.Pairwise rowGT := pairwise_rowGT_of_sorted hSsorted hSne
    have hSeq : sortedTable ((stores 0).filter (userOk u)) = S := by
      refine eq_of_perm_of_pairwise_rowGT
        ((sortedTable_perm _).trans hSperm.symm) ?_ hSGT
      refine pairwise_rowGT_of_sorted (sortedTable_sorted _) ?_
      exact ((sortedTable_perm _).pairwise_iff rowKey_ne_symm).mpr hdist
    rw [hSeq]
    have hL0 : (sortedTable (stores 0)).filter (eligible ⟨u, none, none⟩) = S :=
      List.filter_congr fun x _ => by simp [eligible, accountOk, cursorOk]
    by_cases hsmall : S.length ≤ pageSize
    · have hres := listTransactions_small (stores 0)
        ⟨u, none, none⟩ (by rw [hL0]; exact hsmall)
      rw [listAllSeq, hres]
      exact hL0
    · have hlen : pageSize + 1 ≤ S.length := by omega
      cases hr1 : S.get? (pageSize - 1) with
      | none =>
        rw [List.get?_eq_getElem?, List.getElem?_eq_none_iff] at hr1
        omega
      | some r1 =>
        have hres := listTransactions_big (stores 0)
          ⟨u, none, none⟩ (by rw [hL0]; exact hlen) (by rw [hL0]; exact hr1)
        rw [listAllSeq, hres]
        simp only
        have hrec := listAll_tail stores u S hSGT
          (fun i r hr => vis_eq stores u hdist hins i r hr)
          ((stores 0).length) 1 (pageSize - 1) r1 hr1 (by
            have h1 : S.length ≤ (stores 0).length := by
              calc S.length ≤ (sortedTable (stores 0)).length :=
                    List.length_filter_le _ _
                _ = (stores 0).length := (sortedTable_perm _).length_eq
            omega)
        rw [hL0, hrec]
        have hps : pageSize = 50 := rfl
        rw [show pageSize - 1 + 1 = pageSize by omega]
        exact List.take_append_drop _ _

/-- Fifty-one user rows whose keys tie exactly at the page boundary: rows 0 to 49
have `created_at` 50 down to 1, and row 50 repeats the key `(0, 1)`. -/
def cstore : List TxRow :=
  (List.range 50).map (fun i => ⟨i, "u", 0, 50 - (i : Int), []⟩) ++
    [⟨50, "u", 0, 1, []⟩]

/-- C3, claim as stated, fails when two of the user's transactions share a
`(date, created_at)` key: with the tie straddling the page boundary, the
first page's cursor equals the tied key, the second call's strict
comparison excludes the still-unseen tied row, and that row is never
returned (the same skip occurs for either tie order the database could
pick). -/
theorem c3_keyset_pagination_cex :
    listAllSeq (fun _ => cstore) "u" (cstore.length + 1) 0 none ≠
      sortedTable (cstore.filter (userOk "u")) ∧
    (⟨50, "u", 0, 1, []⟩ : TxRow) ∈ cstore.filter (userOk "u") ∧
    (⟨50, "u", 0, 1, []⟩ : TxRow) ∉
      listAllSeq (fun _ => cstore) "u" (cstore.length + 1) 0 none := by
  refine ⟨by decide, by decide, by decide⟩

theorem c3_keyset_pagination_witness :
    (∀ (store : List TxRow) (q : TxQuery) (k : Int × Int), q.after = some k →
      ∀ r ∈ (listTransactions store q).items, keyLt (rowKey r) k) ∧
    listAllSeq (fun _ => [(⟨0, "u", 0, 2, []⟩ : TxRow), ⟨1, "u", 0, 1, []⟩])
        "u" ([(⟨0, "u", 0, 2, []⟩ : TxRow), ⟨1, "u", 0, 1, []⟩].length + 1)
        0 none =
      sortedTable ([(⟨0, "u", 0, 2, []⟩ : TxRow),
        ⟨1, "u", 0, 1, []⟩].filter (userOk "u")) :=
  c3_keyset_pagination (fun _ => [⟨0, "u", 0, 2, []⟩, ⟨1, "u", 0, 1, []⟩]) "u"
    (by decide) (fun i => ⟨[], by simp, by simp⟩)

/-- The fetch-and-cursor mechanism of one `list` call. -/
def pageMechanism (store : List TxRow) (q : TxQuery) : Prop :=
  (((sortedTable store).filter (eligible q)).take (pageSize + 1)).length ≤
      pageSize + 1 ∧
  ((((sortedTable store).filter (eligible q)).take (pageSize + 1)).length =
      pageSize + 1 →
    (listTransactions store q).items =
      (((sortedTable store).filter (eligible q)).take (pageSize + 1)).dropLast ∧
    (listTransactions store q).next =
      ((((sortedTable store).filter (eligible q)).take
        (pageSize + 1)).dropLast.getLast?).map rowKey) ∧
  ((((sortedTable store).filter (eligible q)).take (pageSize + 1)).length ≠
      pageSize + 1 →
    (listTransactions store q).items =
      ((sortedTable store).filter (eligible q)).take (pageSize + 1) ∧
    (listTransactions store q).next = none)

/-- A table of 120 transactions of one user, dates equal, `created_at` 120 down
to 1. -/
def store120 : List TxRow :=
  (List.range 120).map (fun i => ⟨i, "u", 0, 120 - (i : Int), []⟩)

/-- C7: each call fetches at most `page_size + 1 = 51` rows; exactly when
51 come back the page is the first 50 and `next` is the last retained
row's key, otherwise `next` is absent — and listing the 120 stored
transactions takes exactly 3 calls, the third with `next = none`. -/
theorem c7_page_mechanism (store : List TxRow) (q : TxQuery) :
    pageMechanism store q ∧
    listCalls (fun _ => store120) "u" 121 0 none = 3 ∧
    listAllSeq (fun _ => store120) "u" 121 0 none =
      sortedTable (store120.filter (userOk "u")) ∧
    (listTransactions store120 ⟨"u", none, none⟩).next = some (0, 71) ∧
    (listTransactions store120 ⟨"u", some (0, 71), none⟩).next = some (0, 21) ∧
    (listTransactions store120 ⟨"u", some (0, 21), none⟩).next = none := by
  refine ⟨?_, by rfl, by rfl, by rfl, by rfl, by rfl⟩
  refine ⟨by rw [List.length_take]; omega, ?_, ?_⟩
  · intro h
    simp only [listTransactions]
    rw [if_pos h]
    exact ⟨rfl, rfl⟩
  · intro h
    simp only [listTransactions]
    rw [if_neg h]
    exact ⟨rfl, rfl⟩

end ZeroedBooks
